import Mathlib

/-!
Verification development for the maggma incremental-build engine.

We shallowly embed the core of `maggma/examples/builders.py` and
`maggma/stores/compound_stores.py`:

* Mongo-style documents are association lists `List (String × MVal)` over a
  small value type `MVal` (numbers, strings, lists, sub-documents), with
  Python-dict semantics for lookup, insertion-order-preserving update and
  deletion.
* A store, as consumed by `source_keys_updated`, is its projected cursor
  content: a list of `(key value, raw last-updated value)` pairs together
  with the name of its key field and the decoding half of `lu_func`.
  The sorted queries issued by `source_keys_updated` (sort spec
  `[(lu_field, -1), (key, 1)]`) are modelled by `cursorSort`.
-/

namespace Maggma

/-- A Mongo-ish value: number, string, array, or sub-document.  Documents and
criteria are association lists in insertion order, as Python dicts are. -/
inductive MVal : Type where
  | num : Int → MVal
  | str : String → MVal
  | list : List MVal → MVal
  | dict : List (String × MVal) → MVal

/-- A document / criteria: a Python dict from field names to values. -/
abbrev Doc := List (String × MVal)

/-- Python `d[k]` / `k in d`: first binding of `k`, if any. -/
def dictGet (d : Doc) (k : String) : Option MVal :=
  (d.find? (fun p => p.1 = k)).map (fun p => p.2)

/-- Python `d[k] = v`: replace the binding of `k` in place if present
(Python dicts hold at most one), else append at the end. -/
def dictSet : Doc → String → MVal → Doc
  | [], k, v => [(k, v)]
  | p :: ps, k, v => if p.1 = k then (k, v) :: ps else p :: dictSet ps k v

/-- Python `del d[k]` (total: no-op when absent). -/
def dictDel : Doc → String → Doc
  | [], _ => []
  | p :: ps, k => if p.1 = k then dictDel ps k else p :: dictDel ps k

/-- Python `d.update(u)`: fold `u`'s bindings into `d` left to right. -/
def dictUpdate (d u : Doc) : Doc :=
  u.foldl (fun acc p => dictSet acc p.1 p.2) d

/-- Python `v.copy()`: dicts and lists have a `copy` attribute (shallow copy,
which for our immutable values is the value itself); numbers and strings do
not, so `copy` on them raises `AttributeError`, modelled as `none`. -/
def MVal.copy : MVal → Option MVal
  | .dict d => some (.dict d)
  | .list l => some (.list l)
  | .num _ => none
  | .str _ => none

/-- A source/target store as seen by `source_keys_updated`: the name of its
key field, its documents projected to `(key value, raw lu value)`, and the
decoding half `lu_func[0]` canonicalizing raw last-updated values. -/
structure SStore : Type where
  key : String
  docs : List (Int × Nat)
  decode : Nat → Nat

/-- The order of the Mongo sort spec `[(lu_field, -1), (key, 1)]`:
last-updated descending, then key ascending. -/
def cursorRel (a b : Int × Nat) : Prop :=
  b.2 < a.2 ∨ (a.2 = b.2 ∧ a.1 ≤ b.1)

instance : DecidableRel cursorRel := fun a b => by
  unfold cursorRel; infer_instance

instance : IsTotal (Int × Nat) cursorRel := by
  constructor
  intro a b
  unfold cursorRel
  omega

instance : IsTrans (Int × Nat) cursorRel := by
  constructor
  intro a b c hab hbc
  unfold cursorRel at *
  omega

instance : IsAntisymm (Int × Nat) cursorRel := by
  constructor
  intro a b hab hba
  unfold cursorRel at *
  have h2 : a.2 = b.2 := by omega
  have h1 : a.1 = b.1 := by omega
  exact Prod.ext h1 h2

/-- Cursor order returned by `store.query(..., sort=[(lu_field, -1), (key, 1)])`.
The backing store returns the documents sorted by that spec; we model this
with insertion sort by `cursorRel`. -/
def cursorSort (l : List (Int × Nat)) : List (Int × Nat) :=
  l.insertionSort cursorRel

/-- The merge-join loop of `source_keys_updated` (builders.py lines 30-41):
walk the source cursor; `tdoc` is the head of the remaining target cursor,
`none` once the target cursor is exhausted.  On key match, add the source key
iff the target's raw lu is strictly below the decoded source lu, and advance
the target cursor; on mismatch (or exhausted target) add the source key and
do not advance. -/
def skuAux (decode : Nat → Nat) :
    List (Int × Nat) → List (Int × Nat) → List Int → List Int
  | [], _, acc => acc
  | (sk, _) :: ss, [], acc => skuAux decode ss [] (acc.insert sk)
  | (sk, slu) :: ss, (tk, tlu) :: ts, acc =>
    if tk = sk then
      skuAux decode ss ts (if tlu < decode slu then acc.insert sk else acc)
    else
      skuAux decode ss ((tk, tlu) :: ts) (acc.insert sk)

/-- `source_keys_updated(source, target)` of builders.py: key values of source
documents that are new or updated with respect to the target.  The Python
function returns `list(keys_updated)` for a set `keys_updated`, the iteration
order of a Python set being unspecified; we model the set as a duplicate-free
list built with `List.insert` and fix the order it induces. -/
def source_keys_updated (source target : SStore) : List Int :=
  skuAux source.decode (cursorSort source.docs) (cursorSort target.docs) []

/-- Errors `get_criteria` can raise: the deliberate `RuntimeError` for an
oversized criteria (spec name `CriteriaTooLarge`), and the accidental
`AttributeError` from calling `.copy()` / `.append()` on a value that has no
such attribute. -/
inductive CErr : Type where
  | criteriaTooLarge : CErr
  | attributeError : CErr
deriving DecidableEq

/-- Modelled from the spec: `maggma.utils.total_size` is imported by
builders.py but its definition is not under src/.  The spec says only that it
conservatively estimates the serialized size of the criteria in bytes, so we
model it as an arbitrary size function passed as a parameter. -/
abbrev TotalSizeFn : Type := Doc → Nat

/-- The `{"$in": keys_updated}` clause merged into the criteria by
`get_criteria` in incremental mode. -/
def inClause (source target : SStore) : MVal :=
  .dict [("$in", .list ((source_keys_updated source target).map .num))]

/-- Criteria construction of `get_criteria` (builders.py lines 66-84), before
the size check.  The index checks of lines 47-64 only emit a log warning and
do not affect the result, so they are not modelled.  In incremental mode the
`{source.key: {"$in": keys_updated}}` clause is merged into the base query:
appended to an existing `"$and"` list, conjoined under a new `"$and"` with an
existing `source.key` constraint (whose value is `.copy()`-ed — an
`AttributeError` if it has no such attribute), or added as a fresh key. -/
def build_criteria (source target : SStore) (query : Option Doc)
    (incremental : Bool) : Except CErr Doc :=
  let criteria : Doc :=
    match query with
    | some q => dictUpdate [] q
    | none => []
  if incremental then
    match dictGet criteria "$and" with
    | some (.list l) =>
        .ok (dictSet criteria "$and"
          (.list (l ++ [.dict [(source.key, inClause source target)]])))
    | some _ => .error .attributeError
    | none =>
      match dictGet criteria source.key with
      | some v =>
        match v.copy with
        | some vc =>
            .ok (dictDel
              (dictSet criteria "$and"
                (.list [.dict [(source.key, vc)],
                        .dict [(source.key, inClause source target)]]))
              source.key)
        | none => .error .attributeError
      | none => .ok (dictUpdate criteria [(source.key, inClause source target)])
  else
    .ok criteria

/-- `get_criteria` of builders.py: the constructed criteria, guarded by the
16 MB size ceiling (lines 85-96): `total_size(criteria) / (16*1000*1000) >= 1`,
i.e. `16000000 ≤ total_size criteria`, raises `RuntimeError`. -/
def get_criteria (source target : SStore) (query : Option Doc)
    (incremental : Bool) (total_size : TotalSizeFn) : Except CErr Doc :=
  match build_criteria source target query incremental with
  | .error e => .error e
  | .ok criteria =>
    if 16 * 1000 * 1000 ≤ total_size criteria then .error .criteriaTooLarge
    else .ok criteria

/-- `MapBuilder.process_item` (builders.py lines 158-167): apply the unary
function `ufn`; any exception it raises is caught and replaced by
`{"error": str(e)}` (the `Except.error` case).  The output is
`{key: item[key], lu_field: item[lu_field]}` updated with the processed dict.
Reading `item[key]`/`item[lu_field]` happens outside the `try`, so a missing
field is an uncaught `KeyError`, modelled as `none`. -/
def process_item (key lu_field : String) (ufn : Doc → Except String Doc)
    (item : Doc) : Option Doc :=
  let processed : Doc :=
    match ufn item with
    | .ok p => p
    | .error e => [("error", .str e)]
  match dictGet item key, dictGet item lu_field with
  | some kv, some lv =>
      some (dictUpdate (dictSet (dictSet [] key kv) lu_field lv) processed)
  | _, _ => none

/-- The per-item loop body of `MapBuilder.update_targets` (builders.py lines
171-178): set the target's last-updated field to the decoded source value
(`decode` is `source.lu_func[0]`, applied to the raw field value), delete the
source-named field when the names differ, stamp `"_bt"` with `now`
(`datetime.utcnow()` at call time), and strip `"_id"`.  A document without
the source last-updated field is an uncaught `KeyError` (`none`). -/
def finalizeDoc (slu tlu : String) (decode : MVal → MVal) (now : MVal)
    (item : Doc) : Option Doc :=
  match dictGet item slu with
  | none => none
  | some v =>
    let item1 := dictSet item tlu (decode v)
    let item2 := if slu ≠ tlu then dictDel item1 slu else item1
    let item3 := dictSet item2 "_bt" now
    some (dictDel item3 "_id")

/-- The full loop of `update_targets` over a batch. -/
def finalizeAll (slu tlu : String) (decode : MVal → MVal) (now : MVal) :
    List Doc → Option (List Doc)
  | [] => some []
  | d :: ds =>
    match finalizeDoc slu tlu decode now d, finalizeAll slu tlu decode now ds with
    | some d', some ds' => some (d' :: ds')
    | _, _ => none

/-- `MapBuilder.update_targets` (builders.py lines 169-179): finalize every
item, then call `target.update(items, update_lu=False)`.  We return the pair
actually handed to the target store: the documents and the `update_lu` flag. -/
def update_targets (slu tlu : String) (decode : MVal → MVal) (now : MVal)
    (items : List Doc) : Option (List Doc × Bool) :=
  (finalizeAll slu tlu decode now items).map (fun ds => (ds, false))

/-- A document as grouped by `ConcatStore.groupby`; for the union-view claims
we use integer field values so that Python's tuple comparison (defined only on
mutually comparable values) is total. -/
abbrev CDoc := List (String × Int)

/-- Python `d.get(k, None)`. -/
def cget (d : CDoc) (k : String) : Option Int :=
  (d.find? (fun p => p.1 = k)).map (fun p => p.2)

/-- The `key_set` closure of `ConcatStore.groupby` (compound_stores.py lines
405-408): `tuple(d.get(k, None) for k in keys)`. -/
def keySet (keys : List String) (d : CDoc) : List (Option Int) :=
  keys.map (fun k => cget d k)

/-- Order on one tuple component, as Python compares: `None` sorts below any
integer (Python raises on mixed `None`/int comparison; we totalize). -/
def okLe (a b : Option Int) : Bool :=
  match a, b with
  | none, _ => true
  | some _, none => false
  | some x, some y => decide (x ≤ y)

/-- Python's lexicographic tuple order on group keys. -/
def lkLe : List (Option Int) → List (Option Int) → Bool
  | [], _ => true
  | _ :: _, [] => false
  | a :: as, b :: bs => if a = b then lkLe as bs else okLe a b

/-- The sort order `sorted(docs, key=key_set)` uses. -/
def docKeyRel (keys : List String) (d1 d2 : CDoc) : Prop :=
  lkLe (keySet keys d1) (keySet keys d2) = true

instance (keys : List String) : DecidableRel (docKeyRel keys) := fun d1 d2 =>
  inferInstanceAs (Decidable (_ = true))

/-- `itertools.groupby(sorted_docs, key=key_set)`: split a list into maximal
runs of adjacent elements with equal key. -/
def groupRuns (f : CDoc → List (Option Int)) :
    List CDoc → List (List (Option Int) × List CDoc)
  | [] => []
  | d :: ds =>
    match groupRuns f ds with
    | [] => [(f d, [d])]
    | (k, g) :: rest =>
      if f d = k then (k, d :: g) :: rest else (f d, [d]) :: (k, g) :: rest

/-- `ConcatStore.groupby` (compound_stores.py lines 363-411): collect every
member store's group members (`docs.extend(group[1])` — so per store only the
concatenation of its group members matters, given here as `storeDocs`), then
re-sort the combined list by `key_set` and re-group adjacent equal keys. -/
def concat_groupby (keys : List String) (storeDocs : List (List CDoc)) :
    List (List (Option Int) × List CDoc) :=
  let docs := storeDocs.flatten
  groupRuns (keySet keys) (docs.insertionSort (docKeyRel keys))

/-- `ConcatStore.query` (compound_stores.py lines 340-361): yield every member
store's query results in member order.  A member store is modelled as its
query function over the full `(criteria, properties, sort, skip, limit)`
signature; `ConcatStore.query` passes only `criteria` and `properties` down
(its own `sort`, `skip` and `limit` parameters are accepted but unused). -/
def concat_query {Crit Props SortT D : Type}
    (stores : List (Option Crit → Option Props → Option SortT → Nat → Nat → List D))
    (criteria : Option Crit) (properties : Option Props)
    (sort : Option SortT) (skip limit : Nat) : List D :=
  (stores.map (fun store => store criteria properties none 0 0)).flatten

/-- A Mongo field path, e.g. `"$cname.lu"` as `[cname, lu]`.  The code builds
the paths as `"${}"` / `"${}.{}"` format strings; we keep them split. -/
abbrev MPath := List String

/-- The `lu_max_fields` list of `JointStore._get_pipeline` (compound_stores.py
lines 140-147): the root last-updated path followed by `cname.lu` for every
collection name (including the master, whose nested path simply misses). -/
def lu_max_fields (luField : String) (collection_names : List String) :
    List MPath :=
  [luField] :: collection_names.map (fun c => [c, luField])

/-- Modelled from the spec: MongoDB aggregation path lookup, external to
src/.  A path selects a field of the row, descending into sub-documents;
a missing field or non-document intermediate yields missing (`none`). -/
def evalPath (d : Doc) : MPath → Option MVal
  | [] => none
  | [f] => dictGet d f
  | f :: rest =>
    match dictGet d f with
    | some (.dict d') => evalPath d' rest
    | _ => none

/-- Modelled from the spec: MongoDB's `$max` aggregation operator, external
to src/: the maximum of the numeric operand values, ignoring missing
operands; missing when no operand has a value. -/
def mongoMax (vs : List (Option MVal)) : Option Int :=
  (vs.filterMap (fun v =>
    match v with
    | some (.num n) => some n
    | _ => none)).max?

/-- The effective last-updated value the `$addFields` stage of
`JointStore._get_pipeline` (lines 140-149) computes for a row:
`{"$max": lu_max_fields}` evaluated on the row. -/
def effective_lu (luField : String) (collection_names : List String)
    (row : Doc) : Option Int :=
  mongoMax ((lu_max_fields luField collection_names).map (evalPath row))

theorem mem_skuAux_of_mem (decode : Nat → Nat) :
    ∀ (S T : List (Int × Nat)) (acc : List Int) (x : Int),
      x ∈ acc → x ∈ skuAux decode S T acc := by
  intro S
  induction S with
  | nil =>
    intro T acc x hx
    cases T <;> simpa [skuAux] using hx
  | cons s ss ih =>
    obtain ⟨sk, slu⟩ := s
    intro T acc x hx
    cases T with
    | nil =>
      rw [skuAux]
      exact ih [] _ x (List.mem_insert_of_mem hx)
    | cons t ts =>
      obtain ⟨tk, tlu⟩ := t
      rw [skuAux]
      by_cases htk : tk = sk
      · rw [if_pos htk]
        by_cases hlu : tlu < decode slu
        · rw [if_pos hlu]
          exact ih ts _ x (List.mem_insert_of_mem hx)
        · rw [if_neg hlu]
          exact ih ts _ x hx
      · rw [if_neg htk]
        exact ih ((tk, tlu) :: ts) _ x (List.mem_insert_of_mem hx)

theorem mem_skuAux (decode : Nat → Nat) (k : Int) (slu : Nat) :
    ∀ (S T : List (Int × Nat)) (acc : List Int),
      (k, slu) ∈ S → (∀ t ∈ T, t.1 = k → t.2 < decode slu) →
      k ∈ skuAux decode S T acc := by
  intro S
  induction S with
  | nil =>
    intro T acc hmem _
    exact absurd hmem (List.not_mem_nil _)
  | cons s ss ih =>
    obtain ⟨sk, su⟩ := s
    intro T acc hmem hT
    rcases List.mem_cons.mp hmem with heq | hss
    · injection heq with hk hsu
      subst hk
      subst hsu
      cases T with
      | nil =>
        rw [skuAux]
        exact mem_skuAux_of_mem decode ss [] _ k (List.mem_insert_self k acc)
      | cons t ts =>
        obtain ⟨tk, tlu⟩ := t
        rw [skuAux]
        by_cases htk : tk = k
        · rw [if_pos htk]
          have hlt : tlu < decode slu := hT (tk, tlu) (List.mem_cons_self _ _) htk
          rw [if_pos hlt]
          exact mem_skuAux_of_mem decode ss ts _ k (List.mem_insert_self k acc)
        · rw [if_neg htk]
          exact mem_skuAux_of_mem decode ss _ _ k (List.mem_insert_self k acc)
    · cases T with
      | nil =>
        rw [skuAux]
        exact ih [] _ hss (by intro t ht; cases ht)
      | cons t ts =>
        obtain ⟨tk, tlu⟩ := t
        rw [skuAux]
        by_cases htk : tk = sk
        · rw [if_pos htk]
          refine ih ts _ hss ?_
          intro t ht
          exact hT t (List.mem_cons_of_mem _ ht)
        · rw [if_neg htk]
          exact ih ((tk, tlu) :: ts) _ hss hT

/-- C1. Completeness of change detection: a source document whose key has no
corresponding target document, or whose canonicalized last-updated timestamp
is strictly greater than the matching target document's timestamp, always has
its key in `source_keys_updated source target`.  The hypothesis `hupd`
captures both disjuncts at once: every target document carrying this key (in
particular the unique matching one when target keys are unique; vacuously when
there is none) has a timestamp strictly below the canonicalized source one. -/
theorem C1_completeness (source target : SStore) (k : Int) (slu : Nat)
    (hmem : (k, slu) ∈ source.docs)
    (hupd : ∀ t ∈ target.docs, t.1 = k → t.2 < source.decode slu) :
    k ∈ source_keys_updated source target := by
  unfold source_keys_updated cursorSort
  refine mem_skuAux source.decode k slu _ _ _ ?_ ?_
  · exact (List.mem_insertionSort cursorRel).mpr hmem
  · intro t ht
    exact hupd t ((List.mem_insertionSort cursorRel).mp ht)

/-- Witness for C1: a source document `(key 1, lu 5)` with no target
counterpart is selected. -/
theorem C1_completeness_witness :
    (((1 : Int), (5 : Nat)) ∈ [((1 : Int), (5 : Nat))] ∧
      ∀ t ∈ ([] : List (Int × Nat)), t.1 = 1 → t.2 < 5) ∧
    (1 : Int) ∈ source_keys_updated ⟨"k", [(1, 5)], fun n => n⟩ ⟨"k", [], fun n => n⟩ :=
  ⟨⟨by decide, by decide⟩,
    C1_completeness ⟨"k", [(1, 5)], fun n => n⟩ ⟨"k", [], fun n => n⟩ 1 5
      (by decide) (by decide)⟩

/-- The claimed quiescence (C2) is false on the code: decide-level
counterexample.  Source holds only `(key 1, raw lu 5)`; the target holds
`(key 1, lu 10)` — so every source document's canonical timestamp (5) is ≤
the matching target document's (10) — plus an extra document `(key 2, lu 100)`
unknown to the source.  The merge-join's target cursor stops on `(2, 100)`
(it advances only on key match), so key 1 is spuriously selected:
`source_keys_updated` is not empty. -/
theorem C2_quiescence_cex :
    (∀ p ∈ [((1 : Int), (5 : Nat))], ∀ t ∈ [((2 : Int), (100 : Nat)), (1, 10)],
        t.1 = p.1 → p.2 ≤ t.2) ∧
    (∀ p ∈ [((1 : Int), (5 : Nat))], ∃ t ∈ [((2 : Int), (100 : Nat)), (1, 10)],
        t.1 = p.1) ∧
    source_keys_updated ⟨"k", [(1, 5)], fun n => n⟩
        ⟨"k", [(2, 100), (1, 10)], fun n => n⟩ ≠ [] := by
  refine ⟨by decide, by decide, by decide⟩

theorem skuAux_aligned (decode : Nat → Nat) :
    ∀ (S : List (Int × Nat)) (acc : List Int),
      skuAux decode S (S.map (fun p => (p.1, decode p.2))) acc = acc := by
  intro S
  induction S with
  | nil => intro acc; rw [skuAux]
  | cons s ss ih =>
    obtain ⟨sk, slu⟩ := s
    intro acc
    rw [List.map_cons, skuAux, if_pos rfl, if_neg (lt_irrefl (decode slu))]
    exact ih acc

/-- C2 (amended).  Quiescence of change detection holds when the target is an
exact canonical image of the source: its documents are (a permutation of) the
source's documents with timestamps canonicalized by a strictly monotone
decode.  Then both sorted cursors align pairwise and no key is selected. -/
theorem C2_quiescence_amended (source target : SStore)
    (hmono : StrictMono source.decode)
    (hperm : target.docs.Perm
      (source.docs.map (fun p => (p.1, source.decode p.2)))) :
    source_keys_updated source target = [] := by
  unfold source_keys_updated
  have hsorted_src : List.Sorted cursorRel (cursorSort source.docs) :=
    List.sorted_insertionSort cursorRel source.docs
  have hmap_sorted : List.Sorted cursorRel
      ((cursorSort source.docs).map (fun p => (p.1, source.decode p.2))) := by
    refine List.Pairwise.map _ ?_ hsorted_src
    intro a b hab
    rcases hab with h | ⟨h2, h1⟩
    · exact Or.inl (hmono h)
    · exact Or.inr ⟨by rw [h2], h1⟩
  have hperm2 : (cursorSort target.docs).Perm
      ((cursorSort source.docs).map (fun p => (p.1, source.decode p.2))) := by
    refine ((List.perm_insertionSort cursorRel target.docs).trans hperm).trans ?_
    exact (List.perm_insertionSort cursorRel source.docs).symm.map _
  have heq : cursorSort target.docs =
      (cursorSort source.docs).map (fun p => (p.1, source.decode p.2)) :=
    List.eq_of_perm_of_sorted hperm2
      (List.sorted_insertionSort cursorRel target.docs) hmap_sorted
  rw [heq]
  exact skuAux_aligned source.decode (cursorSort source.docs) []

theorem dictGet_cons (p : String × MVal) (ps : Doc) (k : String) :
    dictGet (p :: ps) k = if p.1 = k then some p.2 else dictGet ps k := by
  by_cases h : p.1 = k
  · simp [dictGet, List.find?_cons_of_pos, h]
  · simp [dictGet, List.find?_cons_of_neg, h]

theorem dictGet_dictSet (d : Doc) (k : String) (v : MVal) (k' : String) :
    dictGet (dictSet d k v) k' = if k' = k then some v else dictGet d k' := by
  induction d with
  | nil =>
    rw [dictSet, dictGet_cons]
    by_cases h : k' = k
    · rw [if_pos h.symm, if_pos h]
    · rw [if_neg (fun hh => h hh.symm), if_neg h]
  | cons p ps ih =>
    rw [dictSet]
    by_cases hp : p.1 = k
    · rw [if_pos hp, dictGet_cons, dictGet_cons]
      by_cases h : k' = k
      · rw [if_pos h.symm, if_pos h]
      · rw [if_neg (fun hh => h hh.symm), if_neg h, if_neg (hp ▸ (fun hh => h hh.symm))]
    · rw [if_neg hp, dictGet_cons, dictGet_cons]
      by_cases hpk : p.1 = k'
      · have h : ¬ k' = k := fun hh => hp (hpk.trans hh)
        rw [if_pos hpk, if_neg h, if_pos hpk]
      · rw [if_neg hpk, if_neg hpk, ih]

theorem dictGet_dictDel (d : Doc) (k k' : String) :
    dictGet (dictDel d k) k' = if k' = k then none else dictGet d k' := by
  induction d with
  | nil =>
    by_cases h : k' = k
    · rw [if_pos h]; rfl
    · rw [if_neg h]; rfl
  | cons p ps ih =>
    rw [dictDel]
    by_cases hp : p.1 = k
    · rw [if_pos hp, ih, dictGet_cons]
      by_cases h : k' = k
      · rw [if_pos h, if_pos h]
      · rw [if_neg h, if_neg h, if_neg (fun hh => h ((hp.symm.trans hh).symm))]
    · rw [if_neg hp, dictGet_cons, dictGet_cons, ih]
      by_cases hpk : p.1 = k'
      · have h : ¬ k' = k := fun hh => hp (hpk.trans hh)
        rw [if_pos hpk, if_pos hpk, if_neg h]
      · rw [if_neg hpk, if_neg hpk]

theorem dictUpdate_cons (d : Doc) (r : String × MVal) (u : Doc) :
    dictUpdate d (r :: u) = dictUpdate (dictSet d r.1 r.2) u := rfl

theorem dictUpdate_single (d : Doc) (r : String × MVal) :
    dictUpdate d [r] = dictSet d r.1 r.2 := rfl

theorem dictSet_append_of_not_mem (d : Doc) (k : String) (v : MVal)
    (h : ∀ p ∈ d, p.1 ≠ k) : dictSet d k v = d ++ [(k, v)] := by
  induction d with
  | nil => rfl
  | cons p ps ih =>
    rw [dictSet, if_neg (h p (List.mem_cons_self _ _)),
      ih (fun q hq => h q (List.mem_cons_of_mem _ hq))]
    rfl

theorem dictUpdate_eq_append (u : Doc) : ∀ (d : Doc),
    (∀ p ∈ d, ∀ r ∈ u, p.1 ≠ r.1) → u.Pairwise (fun a b => a.1 ≠ b.1) →
    dictUpdate d u = d ++ u := by
  induction u with
  | nil => intro d _ _; simp [dictUpdate]
  | cons r u ih =>
    intro d hdisj hnd
    have h1 : dictSet d r.1 r.2 = d ++ [r] := by
      rw [dictSet_append_of_not_mem]
      intro p hp
      exact hdisj p hp r (List.mem_cons_self _ _)
    rw [dictUpdate_cons, h1, ih]
    · simp
    · intro p hp r' hr'
      rcases List.mem_append.mp hp with hd | hr
      · exact hdisj p hd r' (List.mem_cons_of_mem _ hr')
      · have hpr : p = r := by simpa using hr
        subst hpr
        exact (List.pairwise_cons.mp hnd).1 r' hr'
    · exact (List.pairwise_cons.mp hnd).2

theorem dictUpdate_nil (q : Doc) (h : q.Pairwise (fun a b => a.1 ≠ b.1)) :
    dictUpdate [] q = q := by
  rw [dictUpdate_eq_append q [] (by intro p hp; cases hp) h]
  rfl

/-- Witness for the amended C2: target is the canonical image of the source
and nothing is selected. -/
theorem C2_quiescence_amended_witness :
    StrictMono (fun n => n + 1 : Nat → Nat) ∧
    source_keys_updated ⟨"k", [(1, 5), (2, 6)], fun n => n + 1⟩
      ⟨"k", [(2, 7), (1, 6)], fun n => n + 1⟩ = [] :=
  ⟨fun a b h => by show a + 1 < b + 1; omega,
    C2_quiescence_amended ⟨"k", [(1, 5), (2, 6)], fun n => n + 1⟩
      ⟨"k", [(2, 7), (1, 6)], fun n => n + 1⟩
      (fun a b h => by show a + 1 < b + 1; omega) (by decide)⟩

/-- C3. Size guard of `get_criteria`: whatever criteria the construction
produced, if its estimated serialized size reaches 16,000,000 bytes the
function raises (`CriteriaTooLarge`); below the ceiling the computed criteria
itself is returned, untruncated.  Holds for both incremental modes. -/
theorem C3_size_guard (source target : SStore) (query : Option Doc)
    (incremental : Bool) (total_size : TotalSizeFn) (c : Doc)
    (hb : build_criteria source target query incremental = .ok c) :
    (16000000 ≤ total_size c →
      get_criteria source target query incremental total_size =
        .error .criteriaTooLarge) ∧
    (total_size c < 16000000 →
      get_criteria source target query incremental total_size = .ok c) := by
  simp only [get_criteria, hb]
  constructor
  · intro h
    rw [if_pos (by omega)]
  · intro h
    rw [if_neg (by omega)]

/-- Witness for C3 at concrete inputs: an at-ceiling size function raises,
a small one returns the computed criteria. -/
theorem C3_size_guard_witness :
    get_criteria ⟨"k", [], fun n => n⟩ ⟨"k", [], fun n => n⟩ none false
        (fun _ => 16000000) = .error .criteriaTooLarge ∧
    get_criteria ⟨"k", [], fun n => n⟩ ⟨"k", [], fun n => n⟩ none false
        (fun _ => 7) = .ok [] :=
  ⟨(C3_size_guard ⟨"k", [], fun n => n⟩ ⟨"k", [], fun n => n⟩ none false
      (fun _ => 16000000) [] rfl).1 (Nat.le_refl _),
    (C3_size_guard ⟨"k", [], fun n => n⟩ ⟨"k", [], fun n => n⟩ none false
      (fun _ => 7) [] rfl).2 (by decide)⟩

theorem build_criteria_key_merge (source target : SStore) (query : Doc)
    (v vc : MVal)
    (hnd : query.Pairwise (fun a b => a.1 ≠ b.1))
    (hand : dictGet query "$and" = none)
    (hkey : dictGet query source.key = some v)
    (hcopy : v.copy = some vc) :
    build_criteria source target (some query) true =
      .ok (dictDel
        (dictSet query "$and"
          (.list [.dict [(source.key, vc)],
                  .dict [(source.key, inClause source target)]]))
        source.key) := by
  simp only [build_criteria, dictUpdate_nil query hnd, hand, hkey, hcopy, if_true]

/-- The claimed unconditional key-merge shape (C5) fails on the code: at the
concrete base filter `{"k": 5}` — which does constrain the source key —
`get_criteria` in incremental mode raises an uncaught `AttributeError`
(from `5 .copy()`) instead of returning any criteria at all, let alone one
preserving both constraints under `"$and"`. -/
theorem C5_key_merge_cex :
    dictGet [("k", MVal.num 5)] "k" = some (MVal.num 5) ∧
    get_criteria ⟨"k", [], fun n => n⟩ ⟨"k", [], fun n => n⟩
        (some [("k", MVal.num 5)]) true (fun _ => 0) =
      .error .attributeError :=
  ⟨rfl, rfl⟩

/-- C5 (amended).  Key-constraint preservation in incremental criteria: for a
base filter with no top-level `"$and"` whose source-key constraint value has a
`.copy()` attribute (a mapping or array), whenever `get_criteria` returns a
criteria, that criteria conjoins the caller's key constraint and the computed
`{source.key: {"$in": updated_keys}}` clause under an explicit `"$and"`,
removes the now-redundant top-level key binding, and leaves every other field
of the base filter unchanged. -/
theorem C5_key_merge_amended (source target : SStore) (query : Doc)
    (total_size : TotalSizeFn) (v vc : MVal) (c : Doc)
    (hnd : query.Pairwise (fun a b => a.1 ≠ b.1))
    (hand : dictGet query "$and" = none)
    (hkey : dictGet query source.key = some v)
    (hcopy : v.copy = some vc)
    (hok : get_criteria source target (some query) true total_size = .ok c) :
    dictGet c "$and" = some (.list [.dict [(source.key, vc)],
      .dict [(source.key, inClause source target)]]) ∧
    dictGet c source.key = none ∧
    ∀ f, f ≠ source.key → f ≠ "$and" → dictGet c f = dictGet query f := by
  have hne : source.key ≠ "$and" := by
    intro h
    rw [h, hand] at hkey
    cases hkey
  have hb := build_criteria_key_merge source target query v vc hnd hand hkey hcopy
  simp only [get_criteria, hb] at hok
  split at hok
  · cases hok
  · injection hok with hc
    subst hc
    refine ⟨?_, ?_, ?_⟩
    · rw [dictGet_dictDel, if_neg (fun hh => hne hh.symm),
        dictGet_dictSet, if_pos rfl]
    · rw [dictGet_dictDel, if_pos rfl]
    · intro f hf hfa
      rw [dictGet_dictDel, if_neg hf, dictGet_dictSet, if_neg hfa]

/-- Witness for the amended C5, at base filter
`{"k": {"$lt": 3}, "x": 1}` against empty stores. -/
theorem C5_key_merge_amended_witness :
    dictGet [("x", MVal.num 1),
        ("$and", MVal.list [MVal.dict [("k", MVal.dict [("$lt", MVal.num 3)])],
          MVal.dict [("k", MVal.dict [("$in", MVal.list [])])]])] "$and" =
      some (MVal.list [MVal.dict [("k", MVal.dict [("$lt", MVal.num 3)])],
        MVal.dict [("k", MVal.dict [("$in", MVal.list [])])]]) ∧
    dictGet [("x", MVal.num 1),
        ("$and", MVal.list [MVal.dict [("k", MVal.dict [("$lt", MVal.num 3)])],
          MVal.dict [("k", MVal.dict [("$in", MVal.list [])])]])] "k" = none ∧
    dictGet [("x", MVal.num 1),
        ("$and", MVal.list [MVal.dict [("k", MVal.dict [("$lt", MVal.num 3)])],
          MVal.dict [("k", MVal.dict [("$in", MVal.list [])])]])] "x" =
      dictGet [("k", MVal.dict [("$lt", MVal.num 3)]), ("x", MVal.num 1)] "x" :=
  have h := C5_key_merge_amended ⟨"k", [], fun n => n⟩ ⟨"k", [], fun n => n⟩
    [("k", MVal.dict [("$lt", MVal.num 3)]), ("x", MVal.num 1)] (fun _ => 0)
    (MVal.dict [("$lt", MVal.num 3)]) (MVal.dict [("$lt", MVal.num 3)])
    [("x", MVal.num 1),
      ("$and", MVal.list [MVal.dict [("k", MVal.dict [("$lt", MVal.num 3)])],
        MVal.dict [("k", MVal.dict [("$in", MVal.list [])])]])]
    (by simp) rfl rfl rfl rfl
  ⟨h.1, h.2.1, h.2.2 "x" (by decide) (by decide)⟩

/-- The claimed universal `.copy()` failure on non-mapping key constraints
(C10) fails on the code: a Python `list` is not a mapping yet has a `.copy()`
method, so at base filter `{"k": [1]}` the key-merge branch of `get_criteria`
succeeds and returns the `"$and"` conjunction rather than raising. -/
theorem C10_nonmapping_cex :
    get_criteria ⟨"k", [], fun n => n⟩ ⟨"k", [], fun n => n⟩
        (some [("k", MVal.list [MVal.num 1])]) true (fun _ => 0) =
      .ok [("$and", MVal.list [MVal.dict [("k", MVal.list [MVal.num 1])],
        MVal.dict [("k", MVal.dict [("$in", MVal.list [])])]])] :=
  rfl

/-- C10 (amended).  The key-merge branch is only safe when the key
constraint's value has a `.copy()` attribute: for a base filter with no
top-level `"$and"` whose source-key value is a bare scalar (number or
string, `copy = none`), `get_criteria` in incremental mode fails with an
uncaught `AttributeError` instead of returning a criteria. -/
theorem C10_scalar_copy_amended (source target : SStore) (query : Doc)
    (total_size : TotalSizeFn) (v : MVal)
    (hnd : query.Pairwise (fun a b => a.1 ≠ b.1))
    (hand : dictGet query "$and" = none)
    (hkey : dictGet query source.key = some v)
    (hscalar : v.copy = none) :
    get_criteria source target (some query) true total_size =
      .error .attributeError := by
  have hb : build_criteria source target (some query) true =
      .error .attributeError := by
    simp only [build_criteria, dictUpdate_nil query hnd, hand, hkey, hscalar,
      if_true]
  simp only [get_criteria, hb]

/-- Witness for the amended C10 at base filter `{"k": 5}`. -/
theorem C10_scalar_copy_amended_witness :
    get_criteria ⟨"q", [], fun n => n⟩ ⟨"q", [], fun n => n⟩
        (some [("q", MVal.num 5)]) true (fun _ => 0) =
      .error .attributeError :=
  C10_scalar_copy_amended ⟨"q", [], fun n => n⟩ ⟨"q", [], fun n => n⟩
    [("q", MVal.num 5)] (fun _ => 0) (MVal.num 5) (by simp) rfl rfl rfl

/-- C4. Per-item failure isolation: when the caller-supplied `ufn` raises
(`Except.error msg`), `process_item` still returns a target document (the
exception is caught, never propagated, so other items are unaffected), and
that document carries the item's key value under the source key field and the
exception's message under `"error"`.  `key ≠ "error"` rules out the
degenerate store whose key field is itself named `error` (where `out.update`
would overwrite the key value with the message). -/
theorem C4_failure_isolation (key lu_field : String)
    (ufn : Doc → Except String Doc) (item : Doc) (msg : String)
    (kv lv : MVal)
    (hkey : dictGet item key = some kv)
    (hlu : dictGet item lu_field = some lv)
    (hraise : ufn item = .error msg)
    (hne : key ≠ "error") :
    process_item key lu_field ufn item =
      some (dictSet (dictSet (dictSet [] key kv) lu_field lv) "error"
        (.str msg)) ∧
    dictGet (dictSet (dictSet (dictSet [] key kv) lu_field lv) "error"
      (.str msg)) key = some kv ∧
    dictGet (dictSet (dictSet (dictSet [] key kv) lu_field lv) "error"
      (.str msg)) "error" = some (.str msg) := by
  refine ⟨?_, ?_, ?_⟩
  · simp only [process_item, hraise, hkey, hlu]
    rfl
  · rw [dictGet_dictSet, if_neg hne, dictGet_dictSet]
    by_cases h : key = lu_field
    · rw [if_pos h]
      rw [h] at hkey
      rw [hkey] at hlu
      injection hlu with h2
      rw [h2]
    · rw [if_neg h, dictGet_dictSet, if_pos rfl]
  · rw [dictGet_dictSet, if_pos rfl]

/-- Witness for C4: `ufn` raising `"boom"` on item `{"k": 7, "lu": 3}`. -/
theorem C4_failure_isolation_witness :
    process_item "k" "lu" (fun _ => .error "boom")
        [("k", MVal.num 7), ("lu", MVal.num 3)] =
      some [("k", MVal.num 7), ("lu", MVal.num 3), ("error", MVal.str "boom")] ∧
    dictGet [("k", MVal.num 7), ("lu", MVal.num 3), ("error", MVal.str "boom")]
      "k" = some (MVal.num 7) ∧
    dictGet [("k", MVal.num 7), ("lu", MVal.num 3), ("error", MVal.str "boom")]
      "error" = some (MVal.str "boom") :=
  C4_failure_isolation "k" "lu" (fun _ => .error "boom")
    [("k", MVal.num 7), ("lu", MVal.num 3)] "boom" (MVal.num 7) (MVal.num 3)
    rfl rfl rfl (by decide)

theorem finalizeDoc_spec (slu tlu : String) (decode : MVal → MVal) (now : MVal)
    (item d : Doc) (v : MVal)
    (h1 : tlu ≠ "_bt") (h2 : tlu ≠ "_id") (h3 : slu ≠ "_bt")
    (hv : dictGet item slu = some v)
    (hd : finalizeDoc slu tlu decode now item = some d) :
    dictGet d tlu = some (decode v) ∧
    (slu ≠ tlu → dictGet d slu = none) ∧
    dictGet d "_bt" = some now ∧
    dictGet d "_id" = none := by
  simp only [finalizeDoc, hv] at hd
  injection hd with hd
  subst hd
  refine ⟨?_, ?_, ?_, ?_⟩
  · rw [dictGet_dictDel, if_neg h2, dictGet_dictSet, if_neg h1]
    by_cases hst : slu = tlu
    · rw [if_neg (fun hh => hh hst), dictGet_dictSet, if_pos rfl]
    · rw [if_pos hst, dictGet_dictDel, if_neg (fun hh => hst hh.symm),
        dictGet_dictSet, if_pos rfl]
  · intro hst
    rw [dictGet_dictDel]
    by_cases hid : slu = "_id"
    · rw [if_pos hid]
    · rw [if_neg hid, dictGet_dictSet, if_neg h3, if_pos hst, dictGet_dictDel,
        if_pos rfl]
  · rw [dictGet_dictDel, if_neg (by decide), dictGet_dictSet, if_pos rfl]
  · rw [dictGet_dictDel, if_pos rfl]

theorem finalizeAll_mem (slu tlu : String) (decode : MVal → MVal) (now : MVal) :
    ∀ (items ds : List Doc), finalizeAll slu tlu decode now items = some ds →
      ∀ d ∈ ds, ∃ item ∈ items, finalizeDoc slu tlu decode now item = some d := by
  intro items
  induction items with
  | nil =>
    intro ds h d hd
    rw [finalizeAll] at h
    injection h with h
    subst h
    cases hd
  | cons i is ih =>
    intro ds h d hd
    rw [finalizeAll] at h
    cases hf : finalizeDoc slu tlu decode now i with
    | none => rw [hf] at h; cases h
    | some d' =>
      cases hall : finalizeAll slu tlu decode now is with
      | none => rw [hf, hall] at h; cases h
      | some ds' =>
        rw [hf, hall] at h
        injection h with h
        subst h
        rcases List.mem_cons.mp hd with rfl | hmem
        · exact ⟨i, List.mem_cons_self _ _, hf⟩
        · obtain ⟨it, hit, hfi⟩ := ih ds' hall d hmem
          exact ⟨it, List.mem_cons_of_mem _ hit, hfi⟩

/-- C6. Finalize-and-commit postcondition of `update_targets`: the bulk
update is invoked with `update_lu = false`, and every document it sends has
the target last-updated field set to the decoded source value of its
originating item, the source-named field removed when the names differ, a
`"_bt"` build-timestamp set to the call instant, and no `"_id"`.  The three
disequality hypotheses rule out degenerate stores whose last-updated fields
are themselves named `_bt`/`_id`. -/
theorem C6_update_targets (slu tlu : String) (decode : MVal → MVal)
    (now : MVal) (items ds : List Doc) (b : Bool)
    (h1 : tlu ≠ "_bt") (h2 : tlu ≠ "_id") (h3 : slu ≠ "_bt")
    (hok : update_targets slu tlu decode now items = some (ds, b)) :
    b = false ∧
    ∀ d ∈ ds,
      dictGet d "_bt" = some now ∧
      dictGet d "_id" = none ∧
      (slu ≠ tlu → dictGet d slu = none) ∧
      ∃ item ∈ items, ∃ v, dictGet item slu = some v ∧
        dictGet d tlu = some (decode v) := by
  unfold update_targets at hok
  cases hall : finalizeAll slu tlu decode now items with
  | none => rw [hall] at hok; cases hok
  | some ds' =>
    rw [hall] at hok
    injection hok with hok
    injection hok with hds hb
    subst hds
    subst hb
    refine ⟨rfl, ?_⟩
    intro d hd
    obtain ⟨item, hitem, hf⟩ :=
      finalizeAll_mem slu tlu decode now items ds' hall d hd
    cases hv : dictGet item slu with
    | none => rw [finalizeDoc, hv] at hf; cases hf
    | some v =>
      obtain ⟨ha, hbn, hc, hdn⟩ :=
        finalizeDoc_spec slu tlu decode now item d v h1 h2 h3 hv hf
      exact ⟨hc, hdn, hbn, item, hitem, v, hv, ha⟩

/-- Witness for C6 on one concrete item with distinct source/target
last-updated field names. -/
theorem C6_update_targets_witness :
    update_targets "lu_src" "lu" (fun v => v) (MVal.num 99)
        [[("lu_src", MVal.str "t"), ("_id", MVal.num 1), ("a", MVal.num 2)]] =
      some ([[("a", MVal.num 2), ("lu", MVal.str "t"), ("_bt", MVal.num 99)]],
        false) ∧
    dictGet [("a", MVal.num 2), ("lu", MVal.str "t"), ("_bt", MVal.num 99)]
      "_bt" = some (MVal.num 99) ∧
    dictGet [("a", MVal.num 2), ("lu", MVal.str "t"), ("_bt", MVal.num 99)]
      "_id" = none ∧
    dictGet [("a", MVal.num 2), ("lu", MVal.str "t"), ("_bt", MVal.num 99)]
      "lu_src" = none :=
  have h := C6_update_targets "lu_src" "lu" (fun v => v) (MVal.num 99)
    [[("lu_src", MVal.str "t"), ("_id", MVal.num 1), ("a", MVal.num 2)]]
    [[("a", MVal.num 2), ("lu", MVal.str "t"), ("_bt", MVal.num 99)]] false
    (by decide) (by decide) (by decide) rfl
  have hm := h.2 [("a", MVal.num 2), ("lu", MVal.str "t"), ("_bt", MVal.num 99)]
    (List.mem_cons_self _ _)
  ⟨rfl, hm.1, hm.2.1, hm.2.2.1 (by decide)⟩

/-- C9 (implicit).  `ConcatStore.query` ignores `sort`, `skip` and `limit`:
two calls differing only in those arguments are identical, and the result is
exactly the member-order concatenation of each member store's query
restricted to `criteria` and `properties` (member stores are invoked with
their own defaults `sort=None, skip=0, limit=0`). -/
theorem C9_concat_query_ignores_pagination (Crit Props SortT D : Type)
    (stores : List (Option Crit → Option Props → Option SortT → Nat → Nat → List D))
    (criteria : Option Crit) (properties : Option Props)
    (sort1 sort2 : Option SortT) (skip1 skip2 limit1 limit2 : Nat) :
    concat_query stores criteria properties sort1 skip1 limit1 =
      concat_query stores criteria properties sort2 skip2 limit2 ∧
    concat_query stores criteria properties sort1 skip1 limit1 =
      (stores.map (fun store => store criteria properties none 0 0)).flatten :=
  ⟨rfl, rfl⟩

theorem filterMap_num_map (l : List Int) :
    List.filterMap (fun v => match v with
      | some (MVal.num n) => some n
      | _ => none) (l.map (fun n => some (MVal.num n))) = l := by
  induction l with
  | nil => rfl
  | cons a l ih => simp only [List.map_cons, List.filterMap_cons, ih]

theorem mongoMax_cons_nums (t : Int) (l : List Int) :
    mongoMax (some (MVal.num t) :: none :: l.map (fun n => some (MVal.num n))) =
      some (l.foldl max t) := by
  unfold mongoMax
  simp only [List.filterMap_cons, filterMap_num_map]
  exact List.max?_cons'

/-- C8. Join-view freshness: for a row of the join pipeline whose root
last-updated value is `t1` (the master's) and whose joined sub-documents
carry last-updated values `ts c`, the `$addFields`/`$max` stage built by
`_get_pipeline` computes exactly the maximum of the master's and every joined
collection's timestamp.  (`hmaster`: the row has no field named after the
master collection itself — the code also lists `$master.lu` among the `$max`
operands, which is missing on every row and hence ignored.)  In particular a
joined timestamp `t2 > t1` makes the reported last-updated `t2`. -/
theorem C8_join_freshness (luField master : String) (others : List String)
    (row : Doc) (t1 : Int) (ts : String → Int) (sub : String → Doc)
    (hroot : dictGet row luField = some (.num t1))
    (hmaster : dictGet row master = none)
    (hsub : ∀ c ∈ others, dictGet row c = some (.dict (sub c)) ∧
      dictGet (sub c) luField = some (.num (ts c))) :
    effective_lu luField (master :: others) row =
      some ((others.map ts).foldl max t1) := by
  unfold effective_lu lu_max_fields
  simp only [List.map_cons, List.map_map]
  have e1 : evalPath row [luField] = some (MVal.num t1) := hroot
  have e2 : evalPath row [master, luField] = none := by
    simp only [evalPath, hmaster]
  have e3 : others.map (evalPath row ∘ (fun c => [c, luField])) =
      (others.map ts).map (fun n => some (MVal.num n)) := by
    rw [List.map_map]
    apply List.map_congr_left
    intro c hc
    obtain ⟨hc1, hc2⟩ := hsub c hc
    show evalPath row [c, luField] = some (MVal.num (ts c))
    simp only [evalPath, hc1]
    exact hc2
  rw [e1, e2, e3, mongoMax_cons_nums]

/-- Witness for C8: master row timestamp 1, joined row timestamp 2, reported
last-updated 2. -/
theorem C8_join_freshness_witness :
    effective_lu "lu" ["m", "j"]
        [("lu", MVal.num 1), ("j", MVal.dict [("lu", MVal.num 2)])] = some 2 := by
  have h := C8_join_freshness "lu" "m" ["j"]
    [("lu", MVal.num 1), ("j", MVal.dict [("lu", MVal.num 2)])] 1 (fun _ => 2)
    (fun _ => [("lu", MVal.num 2)]) rfl rfl
    (by
      intro c hc
      have hcj : c = "j" := by simpa using hc
      subst hcj
      exact ⟨rfl, rfl⟩)
  rw [h]
  decide

theorem okLe_total (a b : Option Int) : okLe a b = true ∨ okLe b a = true := by
  match a, b with
  | none, _ => exact Or.inl rfl
  | some x, none => exact Or.inr rfl
  | some x, some y =>
    rcases le_total x y with h | h
    · exact Or.inl (by simp [okLe, h])
    · exact Or.inr (by simp [okLe, h])

theorem okLe_trans {a b c : Option Int} (h1 : okLe a b = true)
    (h2 : okLe b c = true) : okLe a c = true := by
  match a, b, c with
  | none, _, _ => rfl
  | some x, none, _ => exact absurd h1 (by simp [okLe])
  | some x, some y, none => exact absurd h2 (by simp [okLe])
  | some x, some y, some z =>
    simp only [okLe, decide_eq_true_eq] at h1 h2 ⊢
    omega

theorem okLe_antisymm {a b : Option Int} (h1 : okLe a b = true)
    (h2 : okLe b a = true) : a = b := by
  match a, b with
  | none, none => rfl
  | none, some y => exact absurd h2 (by simp [okLe])
  | some x, none => exact absurd h1 (by simp [okLe])
  | some x, some y =>
    simp only [okLe, decide_eq_true_eq] at h1 h2
    exact congrArg some (le_antisymm h1 h2)

theorem lkLe_total : ∀ (x y : List (Option Int)),
    lkLe x y = true ∨ lkLe y x = true := by
  intro x
  induction x with
  | nil => intro y; exact Or.inl rfl
  | cons a as ih =>
    intro y
    cases y with
    | nil => exact Or.inr rfl
    | cons b bs =>
      by_cases hab : a = b
      · subst hab
        rw [lkLe, lkLe, if_pos rfl, if_pos rfl]
        exact ih bs
      · rw [lkLe, lkLe, if_neg hab, if_neg (fun h => hab h.symm)]
        exact okLe_total a b

theorem lkLe_trans : ∀ (x y z : List (Option Int)),
    lkLe x y = true → lkLe y z = true → lkLe x z = true := by
  intro x
  induction x with
  | nil => intro y z _ _; rfl
  | cons a as ih =>
    intro y z h1 h2
    cases y with
    | nil => exact absurd h1 (by simp [lkLe])
    | cons b bs =>
      cases z with
      | nil => exact absurd h2 (by simp [lkLe])
      | cons c cs =>
        rw [lkLe] at h1 h2 ⊢
        by_cases hab : a = b
        · subst hab
          rw [if_pos rfl] at h1
          by_cases hbc : a = c
          · subst hbc
            rw [if_pos rfl] at h2
            rw [if_pos rfl]
            exact ih bs cs h1 h2
          · rw [if_neg hbc] at h2
            rw [if_neg hbc]
            exact h2
        · rw [if_neg hab] at h1
          by_cases hbc : b = c
          · subst hbc
            rw [if_pos rfl] at h2
            rw [if_neg hab]
            exact h1
          · rw [if_neg hbc] at h2
            by_cases hac : a = c
            · subst hac
              exact absurd (okLe_antisymm h1 h2) hab
            · rw [if_neg hac]
              exact okLe_trans h1 h2

theorem lkLe_antisymm : ∀ (x y : List (Option Int)),
    lkLe x y = true → lkLe y x = true → x = y := by
  intro x
  induction x with
  | nil =>
    intro y _ h2
    cases y with
    | nil => rfl
    | cons b bs => exact absurd h2 (by simp [lkLe])
  | cons a as ih =>
    intro y h1 h2
    cases y with
    | nil => exact absurd h1 (by simp [lkLe])
    | cons b bs =>
      rw [lkLe] at h1 h2
      by_cases hab : a = b
      · subst hab
        rw [if_pos rfl] at h1 h2
        rw [ih bs h1 h2]
      · rw [if_neg hab] at h1
        rw [if_neg (fun h => hab h.symm)] at h2
        exact absurd (okLe_antisymm h1 h2) hab

theorem groupRuns_cons (f : CDoc → List (Option Int)) (d : CDoc)
    (ds : List CDoc) :
    groupRuns f (d :: ds) =
      match groupRuns f ds with
      | [] => [(f d, [d])]
      | (k, g) :: rest =>
        if f d = k then (k, d :: g) :: rest
        else (f d, [d]) :: (k, g) :: rest := rfl

theorem groupRuns_cons_nil (f : CDoc → List (Option Int)) (d : CDoc)
    (ds : List CDoc) (h : groupRuns f ds = []) :
    groupRuns f (d :: ds) = [(f d, [d])] := by
  rw [groupRuns_cons, h]

theorem groupRuns_cons_pos (f : CDoc → List (Option Int)) (d : CDoc)
    (ds : List CDoc) (k : List (Option Int)) (g : List CDoc)
    (rest : List (List (Option Int) × List CDoc))
    (h : groupRuns f ds = (k, g) :: rest) (hfd : f d = k) :
    groupRuns f (d :: ds) = (k, d :: g) :: rest := by
  rw [groupRuns_cons, h]
  show (if f d = k then (k, d :: g) :: rest
    else (f d, [d]) :: (k, g) :: rest) = (k, d :: g) :: rest
  exact if_pos hfd

theorem groupRuns_cons_neg (f : CDoc → List (Option Int)) (d : CDoc)
    (ds : List CDoc) (k : List (Option Int)) (g : List CDoc)
    (rest : List (List (Option Int) × List CDoc))
    (h : groupRuns f ds = (k, g) :: rest) (hfd : ¬ f d = k) :
    groupRuns f (d :: ds) = (f d, [d]) :: (k, g) :: rest := by
  rw [groupRuns_cons, h]
  show (if f d = k then (k, d :: g) :: rest
    else (f d, [d]) :: (k, g) :: rest) = (f d, [d]) :: (k, g) :: rest
  exact if_neg hfd

theorem groupRuns_flatten (f : CDoc → List (Option Int)) :
    ∀ l : List CDoc, ((groupRuns f l).map (fun g => g.2)).flatten = l := by
  intro l
  induction l with
  | nil => rfl
  | cons d ds ih =>
    cases hg : groupRuns f ds with
    | nil =>
      rw [hg] at ih
      simp only [List.map_nil, List.flatten_nil] at ih
      rw [groupRuns_cons_nil f d ds hg, ← ih]
      rfl
    | cons kg rest =>
      obtain ⟨k, g⟩ := kg
      rw [hg] at ih
      by_cases hfd : f d = k
      · rw [groupRuns_cons_pos f d ds k g rest hg hfd]
        simp only [List.map_cons, List.flatten_cons] at ih ⊢
        rw [← ih]
        rfl
      · rw [groupRuns_cons_neg f d ds k g rest hg hfd]
        simp only [List.map_cons, List.flatten_cons] at ih ⊢
        rw [ih]
        rfl

theorem groupRuns_key (f : CDoc → List (Option Int)) :
    ∀ l : List CDoc, ∀ kg ∈ groupRuns f l, ∀ d ∈ kg.2, f d = kg.1 := by
  intro l
  induction l with
  | nil => intro kg hkg; cases hkg
  | cons d ds ih =>
    intro kg hkg x hx
    cases hg : groupRuns f ds with
    | nil =>
      rw [groupRuns_cons_nil f d ds hg] at hkg
      have hkg1 : kg = (f d, [d]) := by simpa using hkg
      subst hkg1
      have hxd : x = d := by simpa using hx
      subst hxd
      rfl
    | cons kg0 rest =>
      obtain ⟨k, g⟩ := kg0
      by_cases hfd : f d = k
      · rw [groupRuns_cons_pos f d ds k g rest hg hfd] at hkg
        rcases List.mem_cons.mp hkg with rfl | hmem
        · rcases List.mem_cons.mp hx with rfl | hxg
          · exact hfd
          · exact ih (k, g) (hg ▸ List.mem_cons_self _ _) x hxg
        · exact ih kg (hg ▸ List.mem_cons_of_mem _ hmem) x hx
      · rw [groupRuns_cons_neg f d ds k g rest hg hfd] at hkg
        rcases List.mem_cons.mp hkg with rfl | hmem
        · have hxd : x = d := by simpa using hx
          subst hxd
          rfl
        · exact ih kg (hg ▸ hmem) x hx

theorem groupRuns_ne_nil (f : CDoc → List (Option Int)) :
    ∀ l : List CDoc, ∀ kg ∈ groupRuns f l, kg.2 ≠ [] := by
  intro l
  induction l with
  | nil => intro kg hkg; cases hkg
  | cons d ds ih =>
    intro kg hkg
    cases hg : groupRuns f ds with
    | nil =>
      rw [groupRuns_cons_nil f d ds hg] at hkg
      have hkg1 : kg = (f d, [d]) := by simpa using hkg
      subst hkg1
      simp
    | cons kg0 rest =>
      obtain ⟨k, g⟩ := kg0
      by_cases hfd : f d = k
      · rw [groupRuns_cons_pos f d ds k g rest hg hfd] at hkg
        rcases List.mem_cons.mp hkg with rfl | hmem
        · simp
        · exact ih kg (hg ▸ List.mem_cons_of_mem _ hmem)
      · rw [groupRuns_cons_neg f d ds k g rest hg hfd] at hkg
        rcases List.mem_cons.mp hkg with rfl | hmem
        · simp
        · exact ih kg (hg ▸ hmem)

theorem groupRuns_head (f : CDoc → List (Option Int)) (l : List CDoc)
    (k : List (Option Int)) (g : List CDoc)
    (rest : List (List (Option Int) × List CDoc))
    (h : groupRuns f l = (k, g) :: rest) :
    ∃ z l', l = z :: l' ∧ f z = k := by
  have hflat := groupRuns_flatten f l
  rw [h] at hflat
  have hnil : g ≠ [] := groupRuns_ne_nil f l (k, g) (h ▸ List.mem_cons_self _ _)
  cases g with
  | nil => exact absurd rfl hnil
  | cons z g' =>
    refine ⟨z, g' ++ ((rest.map (fun g => g.2)).flatten), ?_, ?_⟩
    · rw [← hflat]
      rfl
    · exact groupRuns_key f l (k, z :: g') (h ▸ List.mem_cons_self _ _) z
        (List.mem_cons_self _ _)

theorem groupRuns_sorted_char (f : CDoc → List (Option Int)) :
    ∀ l : List CDoc,
      l.Pairwise (fun x y => lkLe (f x) (f y) = true) →
      (∀ kg ∈ groupRuns f l,
        kg.2 = l.filter (fun y => decide (f y = kg.1))) ∧
      (groupRuns f l).Pairwise
        (fun g1 g2 => g1.1 ≠ g2.1 ∧ lkLe g1.1 g2.1 = true) := by
  intro l
  induction l with
  | nil =>
    intro _
    exact ⟨fun kg hkg => absurd hkg (List.not_mem_nil _), List.Pairwise.nil⟩
  | cons d ds ih =>
    intro hp
    obtain ⟨hd, hds⟩ := List.pairwise_cons.mp hp
    obtain ⟨ih1, ih2⟩ := ih hds
    cases hg : groupRuns f ds with
    | nil =>
      have hds_nil : ds = [] := by
        have hfl := groupRuns_flatten f ds
        rw [hg] at hfl
        simpa using hfl.symm
      subst hds_nil
      rw [groupRuns_cons_nil f d [] hg]
      constructor
      · intro kg hkg
        have hkg1 : kg = (f d, [d]) := by simpa using hkg
        subst hkg1
        show [d] = List.filter (fun y => decide (f y = f d)) [d]
        simp
      · simp
    | cons kg0 rest =>
      obtain ⟨k, g⟩ := kg0
      have hmem_of : ∀ kg' ∈ groupRuns f ds, ∃ y ∈ ds, f y = kg'.1 := by
        intro kg' hkg'
        have hnil := groupRuns_ne_nil f ds kg' hkg'
        have hchar := ih1 kg' hkg'
        cases hh : kg'.2 with
        | nil => exact absurd hh hnil
        | cons y g'' =>
          have hy : y ∈ kg'.2 := by rw [hh]; exact List.mem_cons_self _ _
          rw [hchar] at hy
          have hy' := List.mem_filter.mp hy
          exact ⟨y, hy'.1, of_decide_eq_true hy'.2⟩
      by_cases hfd : f d = k
      · rw [groupRuns_cons_pos f d ds k g rest hg hfd]
        have hih2 : List.Pairwise
            (fun g1 g2 => g1.1 ≠ g2.1 ∧ lkLe g1.1 g2.1 = true)
            ((k, g) :: rest) := hg ▸ ih2
        have hkne : ∀ kg' ∈ rest, k ≠ kg'.1 := by
          intro kg' hkg'
          exact ((List.pairwise_cons.mp hih2).1 kg' hkg').1
        constructor
        · intro kg hkg
          rcases List.mem_cons.mp hkg with rfl | hmem
          · show d :: g = List.filter (fun y => decide (f y = k)) (d :: ds)
            rw [List.filter_cons, if_pos (decide_eq_true hfd)]
            have hgc := ih1 (k, g) (hg ▸ List.mem_cons_self _ _)
            rw [← hgc]
          · have hchar := ih1 kg (hg ▸ List.mem_cons_of_mem _ hmem)
            show kg.2 = List.filter (fun y => decide (f y = kg.1)) (d :: ds)
            rw [List.filter_cons,
              if_neg (by simpa using fun hh => hkne kg hmem (hfd.symm.trans hh)),
              hchar]
        · obtain ⟨hrel, hrest⟩ := List.pairwise_cons.mp hih2
          exact List.pairwise_cons.mpr ⟨fun a ha => hrel a ha, hrest⟩
      · rw [groupRuns_cons_neg f d ds k g rest hg hfd]
        obtain ⟨z, ds', hds_eq, hfz⟩ := groupRuns_head f ds k g rest hg
        have hempty : ds.filter (fun y => decide (f y = f d)) = [] := by
          rw [List.filter_eq_nil_iff]
          intro y hy hdec
          have hfy : f y = f d := of_decide_eq_true hdec
          have hz_mem : z ∈ ds := by rw [hds_eq]; exact List.mem_cons_self _ _
          have hdz : lkLe (f d) k = true := hfz ▸ hd z hz_mem
          rw [hds_eq] at hy
          rcases List.mem_cons.mp hy with rfl | hy'
          · exact hfd (hfy.symm.trans hfz)
          · have hzy : lkLe (f z) (f y) = true :=
              (List.pairwise_cons.mp (hds_eq ▸ hds)).1 y hy'
            have hky : lkLe k (f d) = true := by
              rw [← hfy, ← hfz]
              exact hzy
            exact hfd (lkLe_antisymm _ _ hdz hky)
        have hkey_ne : ∀ kg' ∈ (k, g) :: rest, kg'.1 ≠ f d := by
          intro kg' hkg'
          obtain ⟨y, hy, hfy⟩ := hmem_of kg' (hg ▸ hkg')
          intro hcontra
          have hyf : y ∈ ds.filter (fun y => decide (f y = f d)) :=
            List.mem_filter.mpr ⟨hy, decide_eq_true (hfy.trans hcontra)⟩
          rw [hempty] at hyf
          cases hyf
        constructor
        · intro kg hkg
          rcases List.mem_cons.mp hkg with rfl | hmem
          · show [d] = List.filter (fun y => decide (f y = f d)) (d :: ds)
            rw [List.filter_cons, if_pos (decide_eq_true rfl), hempty]
          · have hchar := ih1 kg (hg ▸ hmem)
            show kg.2 = List.filter (fun y => decide (f y = kg.1)) (d :: ds)
            rw [List.filter_cons,
              if_neg (by simpa using fun hh => hkey_ne kg hmem hh.symm),
              hchar]
        · refine List.pairwise_cons.mpr ⟨?_, hg ▸ ih2⟩
          intro kg' hkg'
          refine ⟨fun hh => hkey_ne kg' hkg' hh.symm, ?_⟩
          obtain ⟨y, hy, hfy⟩ := hmem_of kg' (hg ▸ hkg')
          have hdy := hd y hy
          rw [hfy] at hdy
          exact hdy

/-- C7. Union-view cross-store grouping: `ConcatStore.groupby` re-groups the
combined member results by the derived group key.  For any two documents of
any member stores sharing a group-key tuple: that tuple is among the output
group keys, every output group carrying it contains both documents, output
group keys are pairwise distinct (so the two documents are never split into
separate per-store groups), and the output groups are emitted in the sorted
key order (deterministic output). -/
theorem C7_union_grouping (keys : List String) (storeDocs : List (List CDoc))
    (d1 d2 : CDoc)
    (h1 : d1 ∈ storeDocs.flatten) (h2 : d2 ∈ storeDocs.flatten)
    (hk : keySet keys d1 = keySet keys d2) :
    keySet keys d1 ∈ (concat_groupby keys storeDocs).map (fun g => g.1) ∧
    (∀ kg ∈ concat_groupby keys storeDocs, kg.1 = keySet keys d1 →
      d1 ∈ kg.2 ∧ d2 ∈ kg.2) ∧
    (concat_groupby keys storeDocs).Pairwise (fun g1 g2 => g1.1 ≠ g2.1) ∧
    (concat_groupby keys storeDocs).Pairwise
      (fun g1 g2 => lkLe g1.1 g2.1 = true) := by
  haveI : IsTotal CDoc (docKeyRel keys) := ⟨fun a b => lkLe_total _ _⟩
  haveI : IsTrans CDoc (docKeyRel keys) := ⟨fun a b c => lkLe_trans _ _ _⟩
  have hsorted : List.Pairwise
      (fun x y => lkLe (keySet keys x) (keySet keys y) = true)
      (storeDocs.flatten.insertionSort (docKeyRel keys)) :=
    List.sorted_insertionSort (docKeyRel keys) storeDocs.flatten
  obtain ⟨hchar, hpw⟩ := groupRuns_sorted_char (keySet keys)
    (storeDocs.flatten.insertionSort (docKeyRel keys)) hsorted
  have hcg : concat_groupby keys storeDocs =
      groupRuns (keySet keys)
        (storeDocs.flatten.insertionSort (docKeyRel keys)) := rfl
  have hs1 : d1 ∈ storeDocs.flatten.insertionSort (docKeyRel keys) :=
    (List.mem_insertionSort (docKeyRel keys)).mpr h1
  have hs2 : d2 ∈ storeDocs.flatten.insertionSort (docKeyRel keys) :=
    (List.mem_insertionSort (docKeyRel keys)).mpr h2
  have hflat := groupRuns_flatten (keySet keys)
    (storeDocs.flatten.insertionSort (docKeyRel keys))
  have hs1' : d1 ∈ ((groupRuns (keySet keys)
      (storeDocs.flatten.insertionSort (docKeyRel keys))).map
        (fun g => g.2)).flatten := by
    rw [hflat]
    exact hs1
  obtain ⟨part, hpart, hd1⟩ := List.mem_flatten.mp hs1'
  obtain ⟨kg0, hkg0, hpart_eq⟩ := List.mem_map.mp hpart
  have hkey0 : keySet keys d1 = kg0.1 :=
    groupRuns_key (keySet keys) _ kg0 hkg0 d1 (by rw [hpart_eq]; exact hd1)
  refine ⟨?_, ?_, ?_, ?_⟩
  · rw [hcg]
    exact List.mem_map.mpr ⟨kg0, hkg0, hkey0.symm⟩
  · intro kg hkg hkeq
    rw [hcg] at hkg
    have hc := hchar kg hkg
    constructor
    · rw [hc]
      exact List.mem_filter.mpr ⟨hs1, decide_eq_true (hkeq.symm)⟩
    · rw [hc]
      exact List.mem_filter.mpr ⟨hs2, decide_eq_true (hk.symm.trans hkeq.symm)⟩
  · rw [hcg]
    exact hpw.imp (fun h => h.1)
  · rw [hcg]
    exact hpw.imp (fun h => h.2)

/-- Witness for C7: two member stores, one document each, sharing group key
`a = 1`; both documents land in the single output group. -/
theorem C7_union_grouping_witness :
    [("a", (1 : Int)), ("s", 1)] ∈
      ([some (1 : Int)], [[("a", (1 : Int)), ("s", (1 : Int))],
        [("a", 1), ("s", 2)]]).2 ∧
    [("a", (1 : Int)), ("s", 2)] ∈
      ([some (1 : Int)], [[("a", (1 : Int)), ("s", (1 : Int))],
        [("a", 1), ("s", 2)]]).2 ∧
    [some (1 : Int)] ∈
      (concat_groupby ["a"]
        [[[("a", (1 : Int)), ("s", 1)]], [[("a", 1), ("s", 2)]]]).map
        (fun g => g.1) :=
  have h := C7_union_grouping ["a"]
    [[[("a", (1 : Int)), ("s", 1)]], [[("a", 1), ("s", 2)]]]
    [("a", 1), ("s", 1)] [("a", 1), ("s", 2)]
    (by decide) (by decide) rfl
  have hg := h.2.1 ([some (1 : Int)],
    [[("a", (1 : Int)), ("s", (1 : Int))], [("a", 1), ("s", 2)]])
    (by decide) rfl
  ⟨hg.1, hg.2, h.1⟩

end Maggma
